import Mathlib

/-!
Verification development for the SurgiTrack backend (`backend/server.py`).

The frame-processing pipeline of the source is shallowly embedded below:
the anti-flicker tracker (`TrackedTool`, `ToolTracker`), the per-region
marker-detection post-processing (`detect_aruco_in_hand_roi`), the decimated
detector gate of the main loop (`arucoPhase`), the console-logging /
event-debounce block (`logStep`), and the two validated HTTP endpoints
(`save_test_result`, `create_contact`).  External capabilities (the camera,
the ArUco oracle, the hand-landmark oracle) appear as input data, exactly as
the design treats them.  Machine floats of the source are idealised as `ℚ`
(exact rationals) except for the Euclidean perimeter, which is `ℝ`; all
quantities compared in the source are far from the rounding thresholds that
could distinguish the two.
-/

namespace SurgiTrack

/-- `DETECTION_HISTORY_SIZE` from the source: size of the hit/miss deque. -/
def DETECTION_HISTORY_SIZE : ℕ := 10

/-- `MIN_CONFIDENCE_THRESHOLD` from the source (`0.4`). -/
def MIN_CONFIDENCE_THRESHOLD : ℚ := 2/5

/-- `MAX_LOST_FRAMES` from the source. -/
def MAX_LOST_FRAMES : ℤ := 25

/-- `POSITION_SMOOTHING` from the source (`0.3`). -/
def POSITION_SMOOTHING : ℚ := 3/10

/-- `UPSCALE_TARGET` from the source. -/
def UPSCALE_TARGET : ℚ := 380

/-- `ARUCO_EVERY_N` from the source. -/
def ARUCO_EVERY_N : ℕ := 2

/-- `REPRINT_AFTER` from the source: seconds of absence before reprinting. -/
def REPRINT_AFTER : ℚ := 10

/-- The `TOOL_MARKERS` registry from the source, as a partial map from
marker id to tool name. -/
def TOOL_MARKERS : ℤ → Option String := fun id =>
  if id = 20 then some "scalpel"
  else if id = 21 then some "artery_forceps"
  else if id = 22 then some "iris_scissors"
  else if id = 23 then some "operating_scissors"
  else if id = 24 then some "tweezers"
  else if id = 25 then some "aspirator"
  else if id = 26 then some "bending_shear"
  else if id = 27 then some "circular_spoon"
  else if id = 28 then some "core_needle"
  else if id = 29 then some "fine_needle"
  else if id = 30 then some "rongeur_forceps_1"
  else if id = 31 then some "rongeur_forceps_2"
  else if id = 32 then some "stripping"
  else if id = 33 then some "wire_grabbing_pliers"
  else none

/-- One step of `collections.deque(maxlen = DETECTION_HISTORY_SIZE).append`:
push on the right, evicting the leftmost element when the deque is full. -/
def dequePush (h : List ℕ) (x : ℕ) : List ℕ :=
  if h.length < DETECTION_HISTORY_SIZE then h ++ [x] else h.tail ++ [x]

/-- `sum(self.detection_history) / len(self.detection_history)`. -/
def histConfidence (h : List ℕ) : ℚ :=
  (h.sum : ℚ) / (h.length : ℚ)

/-- The `TrackedTool` class of the source.  Frame indices are integers,
coordinates exact rationals. -/
structure TrackedTool where
  id : ℤ
  name : String
  center : ℚ × ℚ
  corners : List (ℚ × ℚ)
  last_seen_frame : ℤ
  frames_lost : ℤ
  detection_history : List ℕ
  smoothed_center : ℚ × ℚ
  confidence : ℚ
deriving DecidableEq

/-- `TrackedTool.__init__`: note that `last_seen_frame` starts at `0`
regardless of the tracker cycle at which the tool is first detected. -/
def TrackedTool.init (tool_id : ℤ) (tool_name : String) (center : ℚ × ℚ)
    (corners : List (ℚ × ℚ)) : TrackedTool :=
  { id := tool_id
    name := tool_name
    center := center
    corners := corners
    last_seen_frame := 0
    frames_lost := 0
    detection_history := [1]
    smoothed_center := center
    confidence := 1 }

/-- `TrackedTool.update`: called on a cycle where the id was detected. -/
def TrackedTool.update (t : TrackedTool) (center : ℚ × ℚ)
    (corners : List (ℚ × ℚ)) (current_frame : ℤ) : TrackedTool :=
  let h := dequePush t.detection_history 1
  { t with
    smoothed_center :=
      (POSITION_SMOOTHING * t.smoothed_center.1 + (1 - POSITION_SMOOTHING) * center.1,
       POSITION_SMOOTHING * t.smoothed_center.2 + (1 - POSITION_SMOOTHING) * center.2)
    center := center
    corners := corners
    last_seen_frame := current_frame
    frames_lost := 0
    detection_history := h
    confidence := histConfidence h }

/-- `TrackedTool.predict`: called on a cycle where the id was absent. -/
def TrackedTool.predict (t : TrackedTool) (current_frame : ℤ) : TrackedTool :=
  let h := dequePush t.detection_history 0
  { t with
    frames_lost := current_frame - t.last_seen_frame
    detection_history := h
    confidence := histConfidence h }

/-- `TrackedTool.is_valid`. -/
def TrackedTool.is_valid (t : TrackedTool) : Bool :=
  decide (t.frames_lost ≤ MAX_LOST_FRAMES) &&
    decide (MIN_CONFIDENCE_THRESHOLD ≤ t.confidence)

/-- Well-formedness of a track state, as maintained by the source: the
cached `confidence` field agrees with the history, and the history is a
nonempty hit/miss deque of at most `DETECTION_HISTORY_SIZE` entries. -/
def WFTrack (t : TrackedTool) : Prop :=
  t.confidence = histConfidence t.detection_history ∧
  t.detection_history ≠ [] ∧
  t.detection_history.length ≤ DETECTION_HISTORY_SIZE ∧
  ∀ b ∈ t.detection_history, b ≤ 1

/-- A `DetectionCandidate` handed to the tracker (one entry of the
`detected_tools` dictionaries built by `detect_aruco_in_hand_roi`). -/
structure Detection where
  id : ℤ
  name : String
  corners : List (ℚ × ℚ)
  center : ℤ × ℤ
deriving DecidableEq

/-- Lookup in an insertion-ordered association list (a Python `dict`). -/
def alistFind? (k : ℤ) : List (ℤ × α) → Option α
  | [] => none
  | p :: rest => if p.1 = k then some p.2 else alistFind? k rest

/-- `dict[k] = v` on an insertion-ordered association list: replace in place
when the key exists, append otherwise. -/
def alistInsert (m : List (ℤ × α)) (k : ℤ) (v : α) : List (ℤ × α) :=
  if (alistFind? k m).isSome then
    m.map (fun p => if p.1 = k then (k, v) else p)
  else m ++ [(k, v)]

/-- The `ToolTracker` class: a `dict` of tracks plus the tracker cycle
counter `frame_count`. -/
structure ToolTracker where
  tracked_tools : List (ℤ × TrackedTool)
  frame_count : ℤ
deriving DecidableEq

/-- Body of the first loop of `ToolTracker.update`: one detection dictionary
either updates the existing track for its id or creates a new one. -/
def trackStep (fc : ℤ) (m : List (ℤ × TrackedTool)) (d : Detection) :
    List (ℤ × TrackedTool) :=
  match alistFind? d.id m with
  | some t =>
      alistInsert m d.id (t.update ((d.center.1 : ℚ), (d.center.2 : ℚ)) d.corners fc)
  | none =>
      alistInsert m d.id
        (TrackedTool.init d.id d.name ((d.center.1 : ℚ), (d.center.2 : ℚ)) d.corners)

/-- Second loop of `ToolTracker.update`: every track whose id was absent this
cycle is run through `predict` and deleted when no longer valid. -/
def prunePhase (fc : ℤ) (seen_ids : List ℤ) (m : List (ℤ × TrackedTool)) :
    List (ℤ × TrackedTool) :=
  m.filterMap (fun p =>
    if p.1 ∈ seen_ids then some p
    else
      let t := p.2.predict fc
      if t.is_valid then some (p.1, t) else none)

/-- `ToolTracker.update`. -/
def ToolTracker.update (tr : ToolTracker) (detected_tools : List Detection) :
    ToolTracker :=
  let fc := tr.frame_count + 1
  let seen_ids := detected_tools.map (·.id)
  { tracked_tools :=
      prunePhase fc seen_ids (detected_tools.foldl (trackStep fc) tr.tracked_tools)
    frame_count := fc }

/-- `ToolTracker.get_stable_tools`. -/
def ToolTracker.get_stable_tools (tr : ToolTracker) : List TrackedTool :=
  (tr.tracked_tools.map Prod.snd).filter (fun t => t.is_valid)

/-- The tracker as constructed in the main loop. -/
def emptyTracker : ToolTracker := { tracked_tools := [], frame_count := 0 }

/-- A concrete detection of marker 20 used in the run-based theorems. -/
def d20 : Detection := { id := 20, name := "scalpel", corners := [], center := (0, 0) }

/-- Tracker after 25 cycles with no detections: `frame_count = 25`, no tracks. -/
def tr25 : ToolTracker :=
  (List.replicate 25 ([] : List Detection)).foldl ToolTracker.update emptyTracker

/-- Cycle 26: marker 20 first detected, so its track is created at cycle 26. -/
def tr26 : ToolTracker := tr25.update [d20]

/-- Cycle 27: marker 20 absent. -/
def tr27 : ToolTracker := tr26.update []

/-- Tracker after one empty cycle and then detection of marker 20 at cycle 2. -/
def trCreate2 : ToolTracker := (emptyTracker.update []).update [d20]

/-- Two detections of marker 20 in a single cycle, from two overlapping hand
regions, with different positions and corners. -/
def d20a : Detection :=
  { id := 20, name := "scalpel", corners := [(0, 0), (1, 0), (1, 1), (0, 1)],
    center := (0, 0) }

/-- The second (later-processed) detection of marker 20 in the same cycle. -/
def d20b : Detection :=
  { id := 20, name := "scalpel", corners := [(5, 5), (6, 5), (6, 6), (5, 6)],
    center := (10, 10) }

/-- One tracker cycle fed both duplicate detections of marker 20. -/
def trDup : ToolTracker := emptyTracker.update [d20a, d20b]

/-- Python `int()` truncation toward zero, applied to an exact rational. -/
def pyInt (q : ℚ) : ℤ := Int.tdiv q.num (q.den : ℤ)

/-- `np.mean` of a list of exact rationals. -/
def qmean (l : List ℚ) : ℚ := l.sum / (l.length : ℚ)

/-- Euclidean distance between two points, `ℝ`-valued like the source's
floating-point geometry. -/
noncomputable def ptDist (p q : ℚ × ℚ) : ℝ :=
  Real.sqrt (((q.1 - p.1 : ℚ) : ℝ) ^ 2 + ((q.2 - p.2 : ℚ) : ℝ) ^ 2)

/-- `cv2.arcLength(corners, closed=True)`: the perimeter of the closed
polygon through the given points. -/
noncomputable def arcLength (ps : List (ℚ × ℚ)) : ℝ :=
  match ps with
  | [] => 0
  | p :: rest => (((p :: rest).zip (rest ++ [p])).map (fun pr => ptDist pr.1 pr.2)).sum

/-- `MIN_MARKER_PERIMETER` from the source. -/
def MIN_MARKER_PERIMETER : ℝ := 15

/-- `base_scale` as computed in `detect_aruco_in_hand_roi` for an ROI of the
given pixel dimensions: `1.0` unless either dimension is below
`UPSCALE_TARGET`, in which case the ROI is upscaled by
`max (UPSCALE_TARGET / w) (UPSCALE_TARGET / h)`. -/
def base_scale (w_roi h_roi : ℕ) : ℚ :=
  if (w_roi : ℚ) < UPSCALE_TARGET ∨ (h_roi : ℚ) < UPSCALE_TARGET then
    max (UPSCALE_TARGET / (w_roi : ℚ)) (UPSCALE_TARGET / (h_roi : ℚ))
  else 1

/-- Region-local (possibly upscaled) coordinates back to frame coordinates:
`marker_corners / base_scale + [x, y]`. -/
def invTransform (s : ℚ) (o : ℤ × ℤ) (p : ℚ × ℚ) : ℚ × ℚ :=
  (p.1 / s + (o.1 : ℚ), p.2 / s + (o.2 : ℚ))

/-- The forward transform (frame coordinates to region-local upscaled
coordinates): subtract the region origin, multiply by the scale. -/
def fwdTransform (s : ℚ) (o : ℤ × ℤ) (p : ℚ × ℚ) : ℚ × ℚ :=
  ((p.1 - (o.1 : ℚ)) * s, (p.2 - (o.2 : ℚ)) * s)

/-- One raw result of the marker-detection oracle on a processed ROI:
a marker id and its corner polygon in the processed image's pixel
coordinates. -/
structure OracleDet where
  id : ℤ
  corners : List (ℚ × ℚ)
deriving DecidableEq

open scoped Classical

/-- `detect_aruco_in_hand_roi`: the post-processing of the oracle's raw
results for one hand ROI at origin `(x, y)` with cropped dimensions
`w_roi`, `h_roi`.  The image-processing steps (grayscale, resize, blur,
CLAHE) only change pixels, so the oracle's output on the processed region is
taken as input.  Results with unregistered ids or perimeter below
`MIN_MARKER_PERIMETER` are discarded; surviving corners are mapped back to
frame coordinates and the centroid is truncated to integers. -/
noncomputable def detect_aruco_in_hand_roi (x y : ℤ) (w_roi h_roi : ℕ)
    (oracle : List OracleDet) : List Detection :=
  if w_roi * h_roi = 0 then []
  else
    oracle.filterMap (fun od =>
      match TOOL_MARKERS od.id with
      | none => none
      | some nm =>
          if arcLength od.corners < MIN_MARKER_PERIMETER then none
          else
            let full := od.corners.map (invTransform (base_scale w_roi h_roi) (x, y))
            some { id := od.id, name := nm, corners := full,
                   center := (pyInt (qmean (full.map Prod.fst)),
                              pyInt (qmean (full.map Prod.snd))) })

/-- A cached hand bounding box together with what the marker oracle would
return on its processed ROI. -/
structure HandRegion where
  x : ℤ
  y : ℤ
  w : ℕ
  h : ℕ
  oracle : List OracleDet

/-- The ArUco block of the main loop: on cycles where
`frame_count % ARUCO_EVERY_N == 0` it aggregates the per-region detections
and updates the tracker; on all other cycles neither detection nor a tracker
update happens (`none` records that the detector was not invoked). -/
noncomputable def arucoPhase (frame_count : ℕ) (tracker : ToolTracker)
    (hand_boxes : List HandRegion) : ToolTracker × Option (List Detection) :=
  if frame_count % ARUCO_EVERY_N = 0 then
    let all := hand_boxes.foldl
      (fun acc r => acc ++ detect_aruco_in_hand_roi r.x r.y r.w r.h r.oracle) []
    (tracker.update all, some all)
  else (tracker, none)

/-- Tracker holding one just-created track of marker 20 (cycle 1). -/
def trHit1 : ToolTracker := emptyTracker.update [d20]

/-- An `AppearanceEvent` pushed onto `pending_events`. -/
structure AppearanceEvent where
  id : ℤ
  name : String
  confidence : ℚ
  status : String
deriving DecidableEq

/-- Python `round(x, 3)` idealised over exact rationals (round to nearest
thousandth). -/
def round3 (q : ℚ) : ℚ := ((round (q * 1000) : ℤ) : ℚ) / 1000

/-- The event dictionary appended for a newly announced tool. -/
def mkEvent (t : TrackedTool) : AppearanceEvent :=
  { id := t.id, name := t.name, confidence := round3 t.confidence,
    status := if 0 < t.frames_lost then "tracking" else "detected" }

/-- The console-logging / debounce state of the main loop: `last_printed`
(id to timestamp of last announcement) and `last_seen_time` (id to timestamp
last seen valid). -/
structure LogState where
  last_printed : List (ℤ × ℚ)
  last_seen_time : List (ℤ × ℚ)
deriving DecidableEq

/-- Body of the first console-logging loop for one stable tool: refresh
`last_seen_time`; if the id is not in `last_printed`, announce it and push an
event.  The accumulator is `(last_seen_time, last_printed, pending_events)`. -/
def logTick (now : ℚ)
    (acc : List (ℤ × ℚ) × List (ℤ × ℚ) × List AppearanceEvent)
    (t : TrackedTool) :
    List (ℤ × ℚ) × List (ℤ × ℚ) × List AppearanceEvent :=
  let lst := alistInsert acc.1 t.id now
  if (alistFind? t.id acc.2.1).isSome then (lst, acc.2.1, acc.2.2)
  else (lst, alistInsert acc.2.1 t.id now, acc.2.2 ++ [mkEvent t])

/-- The deletion condition of the second console-logging loop for an
announced id: absent from this cycle's valid set, present in
`last_seen_time`, and last seen strictly more than `REPRINT_AFTER` seconds
ago. -/
def delCond (now : ℚ) (current_ids : List ℤ) (lst1 : List (ℤ × ℚ))
    (tid : ℤ) : Bool :=
  decide (tid ∉ current_ids) &&
    (match alistFind? tid lst1 with
     | some ts => decide (REPRINT_AFTER < now - ts)
     | none => false)

/-- One cycle of the console-logging / debounce block: the first loop over
this cycle's stable tools, then the second loop deleting, from both maps,
every announced id satisfying `delCond`. -/
def logStep (st : LogState) (now : ℚ) (stable : List TrackedTool) :
    LogState × List AppearanceEvent :=
  let current_ids := stable.map (·.id)
  let first := stable.foldl (logTick now)
    (st.last_seen_time, st.last_printed, ([] : List AppearanceEvent))
  let lst1 := first.1
  let lp1 := first.2.1
  let deleted := (lp1.map Prod.fst).filter (delCond now current_ids lst1)
  ({ last_printed := lp1.filter (fun p => decide (p.1 ∉ deleted)),
     last_seen_time := lst1.filter (fun p => decide (p.1 ∉ deleted)) },
   first.2.2)

/-- A concrete valid track used in the debounce run. -/
def toolA : TrackedTool := TrackedTool.init 20 "scalpel" (0, 0) []

/-- The empty console-logging state at startup. -/
def logState0 : LogState := { last_printed := [], last_seen_time := [] }

/-- Debounce state after tool 20 was announced at time 0. -/
def stA : LogState := { last_printed := [(20, 0)], last_seen_time := [(20, 0)] }

/-- The body of a result-submission request; absent JSON keys (and explicit
nulls, which `dict.get` also maps to `None`) are `none`. -/
structure ResultBody where
  procedureId : Option ℤ
  marks : Option ℤ
  totalStages : Option ℤ

/-- A row of the `test_results` table (the serial id and timestamp are
assigned by the database and irrelevant to the claims). -/
structure TestResultRow where
  procedure_id : ℤ
  marks : ℤ
  total_stages : ℤ

/-- `save_test_result` (`POST /api/tests/results`): reject with 400 when any
of the three required fields is missing, inserting nothing; otherwise insert
one row and answer 201. -/
def save_test_result (db : List TestResultRow) (body : ResultBody) :
    ℕ × List TestResultRow :=
  match body.procedureId, body.marks, body.totalStages with
  | some p, some m, some t =>
      (201, db ++ [{ procedure_id := p, marks := m, total_stages := t }])
  | _, _, _ => (400, db)

/-- The body of a contact request. -/
structure ContactBody where
  name : Option String
  email : Option String
  message : Option String

/-- A row of the `contact_messages` table. -/
structure ContactRow where
  name : String
  email : String
  message : String

/-- Python `str.strip()`: drop leading and trailing whitespace. -/
def pyStrip (s : String) : String :=
  ⟨((s.data.dropWhile Char.isWhitespace).reverse.dropWhile Char.isWhitespace).reverse⟩

/-- `create_contact` (`POST /api/contact`): missing fields default to the
empty string, values are stripped, and any empty value is rejected with 400
and no insertion. -/
def create_contact (db : List ContactRow) (body : ContactBody) :
    ℕ × List ContactRow :=
  let name := pyStrip (body.name.getD "")
  let email := pyStrip (body.email.getD "")
  let message := pyStrip (body.message.getD "")
  if name = "" ∨ email = "" ∨ message = "" then (400, db)
  else (201, db ++ [{ name := name, email := email, message := message }])

/-- The last `n` elements of a list (the retained window of a
`deque(maxlen = n)` that has been fed the whole list). -/
def lastN {α : Type} (n : ℕ) (l : List α) : List α := l.drop (l.length - n)

/-- One post-creation tracker cycle from a track's point of view: either the
id was detected this cycle (`hit`, with the detection's raw center, corners
and the cycle index), or it was absent. -/
structure CycleStep where
  hit : Bool
  center : ℚ × ℚ
  corners : List (ℚ × ℚ)
  frame : ℤ

/-- The history bit the source appends for a cycle: `1` on a hit, `0` on a
miss. -/
def stepBit (s : CycleStep) : ℕ := if s.hit then 1 else 0

/-- What `ToolTracker.update` does to one existing track in one cycle:
`TrackedTool.update` when its id was detected, `TrackedTool.predict`
otherwise. -/
def applyCycle (t : TrackedTool) (s : CycleStep) : TrackedTool :=
  if s.hit then t.update s.center s.corners s.frame else t.predict s.frame

/-- A track created by a first detection and then driven through a sequence
of hit/miss cycles. -/
def trackRun (tool_id : ℤ) (nm : String) (c0 : ℚ × ℚ) (k0 : List (ℚ × ℚ))
    (steps : List CycleStep) : TrackedTool :=
  steps.foldl applyCycle (TrackedTool.init tool_id nm c0 k0)

/-- Claim C1: a track created at tracker cycle `t = 26` and never redetected
should, per the claim, be removed at the earlier of cycle `t + 26 = 52`
(framesLost trigger) and the first cycle where its confidence drops below
`2/5` (which is cycle 28: at cycle 27 its history would be `[1, 0]`, giving
confidence `1/2 ≥ 2/5`).  The code instead deletes it already at cycle 27:
`TrackedTool.init` leaves `last_seen_frame = 0`, so the first `predict` sets
`frames_lost` to the absolute cycle index `27 > 25`.  This run exhibits the
divergence. -/
theorem claim_c1_removal_run :
    tr26.frame_count = 26 ∧
    (alistFind? 20 tr26.tracked_tools).map (fun t => t.last_seen_frame) = some 0 ∧
    (alistFind? 20 tr26.tracked_tools).map (fun t => (t.predict 27).frames_lost) =
      some 27 ∧
    (alistFind? 20 tr26.tracked_tools).map (fun t => (t.predict 27).detection_history) =
      some [1, 0] ∧
    histConfidence [1, 0] = 1/2 ∧
    MIN_CONFIDENCE_THRESHOLD ≤ (1/2 : ℚ) ∧
    alistFind? 20 tr27.tracked_tools = none :=
  ⟨by decide, by decide, by decide, by decide,
   by norm_num [histConfidence], by norm_num [MIN_CONFIDENCE_THRESHOLD], by decide⟩

/-- Claim C3: the invariant `framesLost = currentCycle - lastSeenCycle` fails
on the code.  A track created at cycle 2 has `frames_lost = 0` but
`last_seen_frame = 0`, so `0 ≠ 2 - 0` at the creation cycle; and on the first
miss (cycle 3, where `ToolTracker.update` runs `predict 3` on it)
`frames_lost` jumps to `3`, although only one cycle has passed since the id
was last detected (`3 - 2 = 1`). -/
theorem claim_c3_framesLost_run :
    trCreate2.frame_count = 2 ∧
    (alistFind? 20 trCreate2.tracked_tools).map (fun t => t.frames_lost) = some 0 ∧
    (alistFind? 20 trCreate2.tracked_tools).map (fun t => t.last_seen_frame) = some 0 ∧
    (0 : ℤ) ≠ trCreate2.frame_count - 0 ∧
    (alistFind? 20 trCreate2.tracked_tools).map (fun t => (t.predict 3).frames_lost) =
      some 3 ∧
    (3 : ℤ) ≠ 3 - trCreate2.frame_count := by
  decide

theorem alistFind?_append_of_none {α : Type} {i : ℤ} {m l : List (ℤ × α)}
    (h : alistFind? i m = none) : alistFind? i (m ++ l) = alistFind? i l := by
  induction m with
  | nil => simp
  | cons p rest ih =>
      rw [alistFind?] at h
      rcases hp : decide (p.1 = i) with _ | _
      · simp only [decide_eq_false_iff_not] at hp
        rw [List.cons_append, alistFind?, if_neg hp]
        rw [if_neg hp] at h
        exact ih h
      · simp only [decide_eq_true_eq] at hp
        rw [if_pos hp] at h
        exact absurd h (by simp)

theorem alistFind?_map_replace {α : Type} {i : ℤ} {v : α} {m : List (ℤ × α)}
    (h : (alistFind? i m).isSome = true) :
    alistFind? i (m.map fun p => if p.1 = i then (i, v) else p) = some v := by
  induction m with
  | nil => simp [alistFind?] at h
  | cons p rest ih =>
      by_cases hp : p.1 = i
      · simp [alistFind?, hp]
      · rw [alistFind?, if_neg hp] at h
        rw [List.map_cons, if_neg hp, alistFind?, if_neg hp]
        exact ih h

theorem alistFind?_insert_self {α : Type} (m : List (ℤ × α)) (k : ℤ) (v : α) :
    alistFind? k (alistInsert m k v) = some v := by
  rw [alistInsert]
  by_cases h : (alistFind? k m).isSome
  · rw [if_pos h]
    exact alistFind?_map_replace h
  · rw [if_neg h]
    have hnone : alistFind? k m = none := by
      rcases hx : alistFind? k m with _ | w
      · rfl
      · exact absurd (by rw [hx] ; rfl) h
    rw [alistFind?_append_of_none hnone, alistFind?, if_pos rfl]

theorem alistFind?_insert_ne {α : Type} (m : List (ℤ × α)) (k i : ℤ) (v : α)
    (hne : k ≠ i) : alistFind? i (alistInsert m k v) = alistFind? i m := by
  rw [alistInsert]
  by_cases h : (alistFind? k m).isSome
  · rw [if_pos h]
    clear h
    induction m with
    | nil => rfl
    | cons p rest ih =>
        by_cases hp : p.1 = k
        · rw [List.map_cons, if_pos hp, alistFind?, alistFind?, if_neg hne,
            if_neg (by rw [hp] ; exact hne)]
          exact ih
        · rw [List.map_cons, if_neg hp, alistFind?, alistFind?]
          by_cases hpi : p.1 = i
          · rw [if_pos hpi, if_pos hpi]
          · rw [if_neg hpi, if_neg hpi]
            exact ih
  · rw [if_neg h]
    clear h
    induction m with
    | nil => simp [alistFind?, if_neg hne]
    | cons p rest ih =>
        rw [List.cons_append, alistFind?, alistFind?]
        by_cases hpi : p.1 = i
        · rw [if_pos hpi, if_pos hpi]
        · rw [if_neg hpi, if_neg hpi]
          exact ih

theorem mem_alistInsert {α : Type} {m : List (ℤ × α)} {k : ℤ} {v : α}
    {P : ℤ × α → Prop} (hm : ∀ p ∈ m, P p) (hv : P (k, v)) :
    ∀ p ∈ alistInsert m k v, P p := by
  intro p hp
  rw [alistInsert] at hp
  by_cases h : (alistFind? k m).isSome
  · rw [if_pos h] at hp
    obtain ⟨q, hq, hfq⟩ := List.mem_map.mp hp
    by_cases hqk : q.1 = k
    · rw [if_pos hqk] at hfq
      exact hfq ▸ hv
    · rw [if_neg hqk] at hfq
      exact hfq ▸ hm q hq
  · rw [if_neg h] at hp
    rcases List.mem_append.mp hp with h1 | h1
    · exact hm p h1
    · rw [List.mem_singleton.mp h1]
      exact hv

theorem alistFind?_mem {α : Type} {m : List (ℤ × α)} {k : ℤ} {v : α}
    (h : alistFind? k m = some v) : (k, v) ∈ m := by
  induction m with
  | nil => exact absurd h (by simp [alistFind?])
  | cons p rest ih =>
      rw [alistFind?] at h
      by_cases hp : p.1 = k
      · rw [if_pos hp] at h
        have : p = (k, v) := by
          obtain ⟨a, b⟩ := p
          simp only at hp
          simp only [Option.some_inj] at h
          rw [hp, h]
        rw [this] at *
        exact List.mem_cons_self _ _
      · rw [if_neg hp] at h
        exact List.mem_cons_of_mem _ (ih h)

theorem alistFind?_filterMap {α : Type} {f : ℤ × α → Option (ℤ × α)}
    {m : List (ℤ × α)} {i : ℤ}
    (hkeep : ∀ t, f (i, t) = some (i, t))
    (hkey : ∀ p q, f p = some q → q.1 = p.1) :
    alistFind? i (m.filterMap f) = alistFind? i m := by
  induction m with
  | nil => rfl
  | cons p rest ih =>
      rw [List.filterMap_cons]
      by_cases hp : p.1 = i
      · have hpair : p = (i, p.2) := by
          obtain ⟨a, b⟩ := p
          simp only at hp
          rw [hp]
        rw [hpair, hkeep p.2, alistFind?, alistFind?]
        simp
      · rcases hf : f p with _ | q
        · rw [alistFind?, if_neg hp]
          exact ih
        · have hq := hkey p q hf
          rw [alistFind?, alistFind?, if_neg (by rw [hq] ; exact hp), if_neg hp]
          exact ih

theorem phase1_find_preserve {fc : ℤ} {i : ℤ} :
    ∀ (ds : List Detection) (m : List (ℤ × TrackedTool)),
      (∀ x ∈ ds, x.id ≠ i) →
      alistFind? i (ds.foldl (trackStep fc) m) = alistFind? i m := by
  intro ds
  induction ds with
  | nil => intro m _ ; rfl
  | cons dh rest ih =>
      intro m hno
      rw [List.foldl_cons, ih _ (fun x hx => hno x (List.mem_cons_of_mem _ hx))]
      have hdh : dh.id ≠ i := hno dh (List.mem_cons_self _ _)
      rw [trackStep]
      rcases alistFind? dh.id m with _ | t
      · exact alistFind?_insert_ne _ _ _ _ hdh
      · exact alistFind?_insert_ne _ _ _ _ hdh

theorem getLast?_cons_ne_nil {α : Type} {l : List α} (a : α) (h : l ≠ []) :
    (a :: l).getLast? = l.getLast? := by
  cases l with
  | nil => exact absurd rfl h
  | cons b t => rfl

theorem mem_of_getLast?_eq_some {α : Type} {l : List α} {a : α}
    (h : l.getLast? = some a) : a ∈ l := by
  have hx : a ∈ l.getLast? := by rw [h] ; rfl
  obtain ⟨hne, hEq⟩ := List.mem_getLast?_eq_getLast hx
  rw [hEq]
  exact List.getLast_mem hne

theorem trackStep_find_self (fc : ℤ) (m : List (ℤ × TrackedTool)) (d : Detection) :
    ∃ t, alistFind? d.id (trackStep fc m d) = some t ∧
      t.center = ((d.center.1 : ℚ), (d.center.2 : ℚ)) ∧ t.corners = d.corners := by
  rw [trackStep]
  rcases alistFind? d.id m with _ | t
  · refine ⟨_, alistFind?_insert_self _ _ _, ?_, ?_⟩ <;> rfl
  · refine ⟨_, alistFind?_insert_self _ _ _, ?_, ?_⟩ <;> rfl

theorem phase1_find_last {fc : ℤ} {i : ℤ} :
    ∀ (ds : List Detection) (m : List (ℤ × TrackedTool)) (d : Detection),
      (ds.filter fun x => decide (x.id = i)).getLast? = some d →
      ∃ t, alistFind? i (ds.foldl (trackStep fc) m) = some t ∧
        t.center = ((d.center.1 : ℚ), (d.center.2 : ℚ)) ∧ t.corners = d.corners := by
  intro ds
  induction ds with
  | nil => intro m d h ; exact absurd h (by simp)
  | cons dh rest ih =>
      intro m d h
      rw [List.filter_cons] at h
      rcases hr : (rest.filter fun x => decide (x.id = i)).getLast? with _ | d2
      · have hrest : (rest.filter fun x => decide (x.id = i)) = [] := by
          rwa [List.getLast?_eq_none_iff] at hr
        rw [hrest] at h
        by_cases hdh : dh.id = i
        · rw [if_pos (by simpa using hdh)] at h
          have hd : dh = d := by simpa using h
          subst hd
          have hno : ∀ x ∈ rest, x.id ≠ i := by
            intro x hx
            have := List.filter_eq_nil_iff.mp hrest x hx
            simpa using this
          rw [List.foldl_cons, phase1_find_preserve rest _ hno]
          obtain ⟨t, ht, hc, hk⟩ := trackStep_find_self fc m dh
          rw [hdh] at ht
          exact ⟨t, ht, hc, hk⟩
        · rw [if_neg (by simpa using hdh)] at h
          exact absurd h (by simp)
      · have hne : (rest.filter fun x => decide (x.id = i)) ≠ [] := by
          intro hempty
          rw [hempty] at hr
          exact absurd hr (by simp)
        have hsame : ((if (decide (dh.id = i)) = true then
            dh :: (rest.filter fun x => decide (x.id = i))
            else (rest.filter fun x => decide (x.id = i))).getLast?) =
            (rest.filter fun x => decide (x.id = i)).getLast? := by
          split
          · exact getLast?_cons_ne_nil dh hne
          · rfl
        rw [hsame, hr] at h
        rw [List.foldl_cons]
        exact ih _ d (h ▸ hr)

/-- Claim C8 (amended): `ToolTracker.update` gives the track of id `i` the
raw center and corners of the LAST detection with id `i` in the cycle's
processing order. -/
theorem claim_c8_last_wins (tr : ToolTracker) (ds : List Detection) (i : ℤ)
    (d : Detection)
    (hlast : (ds.filter fun x => decide (x.id = i)).getLast? = some d) :
    ∃ t, alistFind? i (tr.update ds).tracked_tools = some t ∧
      t.center = ((d.center.1 : ℚ), (d.center.2 : ℚ)) ∧ t.corners = d.corners := by
  have hd_mem : d ∈ ds.filter fun x => decide (x.id = i) :=
    mem_of_getLast?_eq_some hlast
  have hd_id : d.id = i := by
    have := List.of_mem_filter hd_mem
    simpa using this
  have hi_seen : i ∈ ds.map (·.id) :=
    List.mem_map.mpr ⟨d, List.mem_of_mem_filter hd_mem, hd_id⟩
  rw [ToolTracker.update]
  simp only
  rw [prunePhase, alistFind?_filterMap (fun t => by rw [if_pos hi_seen])
    (fun p q hpq => by
      by_cases hmem : p.1 ∈ ds.map (·.id)
      · rw [if_pos hmem] at hpq
        rw [← Option.some_inj.mp hpq]
      · rw [if_neg hmem] at hpq
        by_cases hv : (p.2.predict (tr.frame_count + 1)).is_valid
        · rw [if_pos hv] at hpq
          rw [← Option.some_inj.mp hpq]
        · rw [if_neg hv] at hpq
          exact absurd hpq (by simp))]
  exact phase1_find_last ds tr.tracked_tools d hlast

/-- Claim C8 (counterexample to the claim as stated): two detections of
marker 20 in one cycle contribute TWO hit entries to the detection history
(the cycle does not contribute exactly one observation), although the later
detection does supply the final raw center and corners. -/
theorem claim_c8_counterexample :
    (alistFind? 20 trDup.tracked_tools).map (fun t => t.detection_history) =
      some [1, 1] ∧
    ([1, 1] : List ℕ) ≠ [1] ∧
    (alistFind? 20 trDup.tracked_tools).map (fun t => t.center) =
      some ((10 : ℚ), (10 : ℚ)) ∧
    (alistFind? 20 trDup.tracked_tools).map (fun t => t.corners) =
      some [(5, 5), (6, 5), (6, 6), (5, 6)] := by
  decide

/-- Witness for `claim_c8_last_wins` at a concrete input. -/
theorem claim_c8_last_wins_witness :
    ∃ t, alistFind? 20 (emptyTracker.update [d20a, d20b]).tracked_tools = some t ∧
      t.center = ((d20b.center.1 : ℚ), (d20b.center.2 : ℚ)) ∧
      t.corners = d20b.corners :=
  claim_c8_last_wins emptyTracker [d20a, d20b] 20 d20b (by decide)

theorem is_valid_iff {t : TrackedTool} :
    t.is_valid = true ↔
      t.frames_lost ≤ MAX_LOST_FRAMES ∧ MIN_CONFIDENCE_THRESHOLD ≤ t.confidence := by
  rw [TrackedTool.is_valid]
  simp

theorem sum_le_length {h : List ℕ} (hb : ∀ b ∈ h, b ≤ 1) : h.sum ≤ h.length := by
  induction h with
  | nil => simp
  | cons a t ih =>
      simp only [List.sum_cons, List.length_cons]
      have ha : a ≤ 1 := hb a (List.mem_cons_self _ _)
      have ht := ih (fun b hb2 => hb b (List.mem_cons_of_mem _ hb2))
      omega

theorem histConfidence_nonneg (h : List ℕ) : 0 ≤ histConfidence h := by
  rw [histConfidence]
  positivity

theorem histConfidence_le_one {h : List ℕ} (hb : ∀ b ∈ h, b ≤ 1) :
    histConfidence h ≤ 1 := by
  by_cases hnil : h = []
  · rw [hnil, histConfidence]
    norm_num
  · have hlen : 0 < (h.length : ℚ) := by
      have := List.length_pos.mpr hnil
      exact_mod_cast this
    rw [histConfidence, div_le_one hlen]
    exact_mod_cast sum_le_length hb

theorem dequePush_ne_nil (h : List ℕ) (x : ℕ) : dequePush h x ≠ [] := by
  rw [dequePush]
  split <;> simp

theorem dequePush_length_le {h : List ℕ}
    (hlen : h.length ≤ DETECTION_HISTORY_SIZE) (x : ℕ) :
    (dequePush h x).length ≤ DETECTION_HISTORY_SIZE := by
  rw [dequePush]
  split
  · simp only [List.length_append, List.length_cons, List.length_nil]
    omega
  · rename_i hcond
    rw [DETECTION_HISTORY_SIZE] at hcond hlen
    simp only [List.length_append, List.length_tail, List.length_cons, List.length_nil,
      DETECTION_HISTORY_SIZE]
    omega

theorem mem_dequePush {h : List ℕ} {x b : ℕ} (hb : b ∈ dequePush h x) :
    b ∈ h ∨ b = x := by
  rw [dequePush] at hb
  split at hb <;>
  · rcases List.mem_append.mp hb with h1 | h1
    · left
      first
        | exact h1
        | exact List.mem_of_mem_tail h1
    · right
      simpa using h1

theorem div_succ_mono (s n : ℚ) (hn : 0 < n) (hsl : s ≤ n) :
    s / n ≤ (s + 1) / (n + 1) := by
  rw [div_le_div_iff₀ hn (by linarith)]
  nlinarith

theorem histConfidence_push_one {h : List ℕ} (hne : h ≠ [])
    (hlen : h.length ≤ DETECTION_HISTORY_SIZE) (hb : ∀ b ∈ h, b ≤ 1) :
    histConfidence h ≤ histConfidence (dequePush h 1) := by
  have hpos : 0 < (h.length : ℚ) := by
    have := List.length_pos.mpr hne
    exact_mod_cast this
  rw [dequePush]
  by_cases hlt : h.length < DETECTION_HISTORY_SIZE
  · rw [if_pos hlt, histConfidence, histConfidence]
    simp only [List.sum_append, List.length_append, List.sum_cons, List.sum_nil,
      List.length_cons, List.length_nil]
    have hsl : h.sum ≤ h.length := sum_le_length hb
    have e1 : ((h.sum + (1 + 0) : ℕ) : ℚ) = (h.sum : ℚ) + 1 := by
      rw [Nat.cast_add] ; norm_num
    have e2 : ((h.length + (0 + 1) : ℕ) : ℚ) = (h.length : ℚ) + 1 := by
      rw [Nat.cast_add] ; norm_num
    rw [e1, e2]
    exact div_succ_mono _ _ hpos (by exact_mod_cast hsl)
  · rw [if_neg hlt]
    obtain ⟨a, t, rfl⟩ := List.exists_cons_of_ne_nil hne
    have ha : a ≤ 1 := hb a (List.mem_cons_self _ _)
    rw [histConfidence, histConfidence]
    simp only [List.tail_cons, List.sum_append, List.length_append, List.sum_cons,
      List.sum_nil, List.length_cons, List.length_nil]
    have e1 : ((t.sum + (1 + 0) : ℕ) : ℚ) = (t.sum : ℚ) + 1 := by
      rw [Nat.cast_add] ; norm_num
    have e2 : ((a + t.sum : ℕ) : ℚ) = (a : ℚ) + (t.sum : ℚ) := by
      rw [Nat.cast_add]
    have e3 : ((t.length + (0 + 1) : ℕ) : ℚ) = (t.length : ℚ) + 1 := by
      rw [Nat.cast_add] ; norm_num
    rw [e1, e2, e3]
    have haq : (a : ℚ) ≤ 1 := by exact_mod_cast ha
    have hD : (0 : ℚ) < (t.length : ℚ) + 1 := by positivity
    rw [div_le_div_iff₀ hD hD]
    nlinarith [hD]

theorem predict_WF {t : TrackedTool} (hwf : WFTrack t) (f : ℤ) :
    WFTrack (t.predict f) := by
  obtain ⟨hc, hne, hlen, hb⟩ := hwf
  refine ⟨rfl, dequePush_ne_nil _ _, dequePush_length_le hlen _, ?_⟩
  intro b hbm
  rcases mem_dequePush hbm with h1 | h1
  · exact hb b h1
  · omega

theorem update_WF {t : TrackedTool} (hwf : WFTrack t) (c : ℚ × ℚ)
    (ks : List (ℚ × ℚ)) (f : ℤ) :
    WFTrack (t.update c ks f) ∧ t.confidence ≤ (t.update c ks f).confidence := by
  obtain ⟨hc, hne, hlen, hb⟩ := hwf
  constructor
  · refine ⟨rfl, dequePush_ne_nil _ _, dequePush_length_le hlen _, ?_⟩
    intro b hbm
    rcases mem_dequePush hbm with h1 | h1
    · exact hb b h1
    · omega
  · rw [TrackedTool.update]
    simp only
    rw [hc]
    exact histConfidence_push_one hne hlen hb

theorem init_WF_valid (i : ℤ) (n : String) (c : ℚ × ℚ) (ks : List (ℚ × ℚ)) :
    WFTrack (TrackedTool.init i n c ks) ∧
      (TrackedTool.init i n c ks).is_valid = true := by
  constructor
  · refine ⟨?_, by simp [TrackedTool.init], by simp [TrackedTool.init, DETECTION_HISTORY_SIZE], ?_⟩
    · show (1 : ℚ) = histConfidence [1]
      rw [histConfidence]
      norm_num
    · intro b hbm
      simp only [TrackedTool.init, List.mem_singleton] at hbm
      omega
  · rw [is_valid_iff]
    refine ⟨by norm_num [TrackedTool.init, MAX_LOST_FRAMES], ?_⟩
    show MIN_CONFIDENCE_THRESHOLD ≤ (1 : ℚ)
    norm_num [MIN_CONFIDENCE_THRESHOLD]

theorem update_WF_valid {t : TrackedTool} (hwf : WFTrack t)
    (hv : t.is_valid = true) (c : ℚ × ℚ) (ks : List (ℚ × ℚ)) (f : ℤ) :
    WFTrack (t.update c ks f) ∧ (t.update c ks f).is_valid = true := by
  obtain ⟨hwf2, hmono⟩ := update_WF hwf c ks f
  refine ⟨hwf2, ?_⟩
  rw [is_valid_iff]
  constructor
  · show (0 : ℤ) ≤ MAX_LOST_FRAMES
    norm_num [MAX_LOST_FRAMES]
  · exact le_trans (is_valid_iff.mp hv).2 hmono

theorem phase1_invariant {fc : ℤ} :
    ∀ (ds : List Detection) (m : List (ℤ × TrackedTool)),
      (∀ p ∈ m, WFTrack p.2 ∧ p.2.is_valid = true) →
      ∀ p ∈ ds.foldl (trackStep fc) m, WFTrack p.2 ∧ p.2.is_valid = true := by
  intro ds
  induction ds with
  | nil => intro m hm ; exact hm
  | cons d rest ih =>
      intro m hm
      rw [List.foldl_cons]
      apply ih
      rw [trackStep]
      rcases hf : alistFind? d.id m with _ | t
      · exact mem_alistInsert hm (init_WF_valid _ _ _ _)
      · have ht := hm (d.id, t) (alistFind?_mem hf)
        exact mem_alistInsert hm (update_WF_valid ht.1 ht.2 _ _ _)

theorem prunePhase_invariant {fc : ℤ} {seen : List ℤ} {m : List (ℤ × TrackedTool)}
    (hm : ∀ p ∈ m, WFTrack p.2 ∧ p.2.is_valid = true) :
    ∀ p ∈ prunePhase fc seen m, WFTrack p.2 ∧ p.2.is_valid = true := by
  intro p hp
  rw [prunePhase] at hp
  obtain ⟨q, hq, hfq⟩ := List.mem_filterMap.mp hp
  by_cases hseen : q.1 ∈ seen
  · rw [if_pos hseen] at hfq
    exact Option.some_inj.mp hfq ▸ hm q hq
  · rw [if_neg hseen] at hfq
    simp only at hfq
    by_cases hv : (q.2.predict fc).is_valid
    · rw [if_pos hv] at hfq
      refine Option.some_inj.mp hfq ▸ ⟨predict_WF (hm q hq).1 fc, hv⟩
    · rw [if_neg hv] at hfq
      exact absurd hfq (by simp)

theorem tracker_update_invariant (tr : ToolTracker) (ds : List Detection)
    (h : ∀ p ∈ tr.tracked_tools, WFTrack p.2 ∧ p.2.is_valid = true) :
    ∀ p ∈ (tr.update ds).tracked_tools, WFTrack p.2 ∧ p.2.is_valid = true := by
  rw [ToolTracker.update]
  exact prunePhase_invariant (phase1_invariant ds tr.tracked_tools h)

/-- Claim C10: after `ToolTracker.update`, every retained track is valid
(so `get_stable_tools` is exactly the list of all retained tracks), and
appending a hit (`TrackedTool.update`) never decreases confidence. -/
theorem claim_c10_invariant (tr : ToolTracker) (ds : List Detection)
    (t0 : TrackedTool) (c : ℚ × ℚ) (ks : List (ℚ × ℚ)) (f : ℤ)
    (hwf : ∀ p ∈ tr.tracked_tools, WFTrack p.2 ∧ p.2.is_valid = true)
    (h0 : WFTrack t0) :
    (∀ p ∈ (tr.update ds).tracked_tools, p.2.is_valid = true) ∧
    (tr.update ds).get_stable_tools = (tr.update ds).tracked_tools.map Prod.snd ∧
    t0.confidence ≤ (t0.update c ks f).confidence := by
  have hall := tracker_update_invariant tr ds hwf
  refine ⟨fun p hp => (hall p hp).2, ?_, (update_WF h0 c ks f).2⟩
  rw [ToolTracker.get_stable_tools]
  apply List.filter_eq_self.mpr
  intro t ht
  obtain ⟨p, hp, hpt⟩ := List.mem_map.mp ht
  exact hpt ▸ (hall p hp).2

theorem lastN_of_length_le {α : Type} {n : ℕ} {l : List α} (h : l.length ≤ n) :
    lastN n l = l := by
  rw [lastN, Nat.sub_eq_zero_of_le h, List.drop_zero]

theorem lastN_cons_of_le {α : Type} {n : ℕ} {l : List α} (a : α)
    (h : n ≤ l.length) : lastN n (a :: l) = lastN n l := by
  rw [lastN, lastN, List.length_cons]
  have : l.length + 1 - n = (l.length - n) + 1 := by omega
  rw [this, List.drop_succ_cons]

theorem lastN_append_lastN {α : Type} (n : ℕ) (l m : List α) :
    lastN n (lastN n l ++ m) = lastN n (l ++ m) := by
  induction l with
  | nil => simp [lastN]
  | cons a t ih =>
      by_cases h : (a :: t).length ≤ n
      · rw [lastN_of_length_le h]
      · have ht : n ≤ t.length := by
          simp only [List.length_cons] at h
          omega
        have htm : n ≤ (t ++ m).length := by
          rw [List.length_append]
          omega
        rw [lastN_cons_of_le a ht, List.cons_append, lastN_cons_of_le a htm]
        exact ih

theorem lastN_length {α : Type} (n : ℕ) (l : List α) :
    (lastN n l).length = min n l.length := by
  rw [lastN, List.length_drop]
  omega

theorem mem_lastN {α : Type} {n : ℕ} {l : List α} {b : α} (h : b ∈ lastN n l) :
    b ∈ l :=
  List.drop_subset _ _ h

theorem dequePush_eq_lastN {h : List ℕ} (hlen : h.length ≤ DETECTION_HISTORY_SIZE)
    (x : ℕ) : dequePush h x = lastN DETECTION_HISTORY_SIZE (h ++ [x]) := by
  rw [dequePush]
  by_cases hlt : h.length < DETECTION_HISTORY_SIZE
  · rw [if_pos hlt]
    exact (lastN_of_length_le (by rw [List.length_append] ; simpa using hlt)).symm
  · rw [if_neg hlt]
    have hlen10 : h.length = DETECTION_HISTORY_SIZE := le_antisymm hlen (not_lt.mp hlt)
    have hne : h ≠ [] := by
      intro hnil
      rw [hnil] at hlen10
      simp [DETECTION_HISTORY_SIZE] at hlen10
    obtain ⟨a, t, rfl⟩ := List.exists_cons_of_ne_nil hne
    rw [lastN]
    have hd1 : ((a :: t) ++ [x]).length - DETECTION_HISTORY_SIZE = 1 := by
      simp only [List.length_append, List.length_cons, List.length_nil,
        DETECTION_HISTORY_SIZE] at hlen10 ⊢
      omega
    rw [hd1, List.cons_append, List.drop_succ_cons, List.drop_zero, List.tail_cons]

theorem applyCycle_hist (t : TrackedTool) (s : CycleStep) :
    (applyCycle t s).detection_history = dequePush t.detection_history (stepBit s) ∧
    (applyCycle t s).confidence =
      histConfidence ((applyCycle t s).detection_history) := by
  cases hhit : s.hit <;>
    simp [applyCycle, stepBit, hhit, TrackedTool.predict, TrackedTool.update]

theorem applyCycle_run (steps : List CycleStep) :
    ∀ (t : TrackedTool), t.detection_history.length ≤ DETECTION_HISTORY_SIZE →
      t.confidence = histConfidence t.detection_history →
      (steps.foldl applyCycle t).detection_history =
        lastN DETECTION_HISTORY_SIZE (t.detection_history ++ steps.map stepBit) ∧
      (steps.foldl applyCycle t).confidence =
        histConfidence ((steps.foldl applyCycle t).detection_history) := by
  induction steps with
  | nil =>
      intro t h1 h2
      rw [List.map_nil, List.append_nil, List.foldl_nil]
      exact ⟨(lastN_of_length_le h1).symm, h2⟩
  | cons s rest ih =>
      intro t h1 h2
      rw [List.foldl_cons]
      obtain ⟨hsh, hsc⟩ := applyCycle_hist t s
      obtain ⟨ihh, ihc⟩ := ih (applyCycle t s)
        (by rw [hsh] ; exact dequePush_length_le h1 _) hsc
      refine ⟨?_, ihc⟩
      rw [ihh, hsh, dequePush_eq_lastN h1, lastN_append_lastN, List.map_cons,
        List.append_assoc, List.singleton_append]

/-- Claim C4: over any sequence of hit/miss cycles, a track's confidence is
the number of hits in the retained window divided by
`min (cyclesSeen) (windowSize)` (the creation cycle counts as the first hit),
and it always lies in `[0, 1]`. -/
theorem claim_c4_confidence (tool_id : ℤ) (nm : String) (c0 : ℚ × ℚ)
    (k0 : List (ℚ × ℚ)) (steps : List CycleStep) :
    (trackRun tool_id nm c0 k0 steps).confidence =
      ((lastN DETECTION_HISTORY_SIZE (1 :: steps.map stepBit)).sum : ℚ) /
        ((min (steps.length + 1) DETECTION_HISTORY_SIZE : ℕ) : ℚ) ∧
    0 ≤ (trackRun tool_id nm c0 k0 steps).confidence ∧
    (trackRun tool_id nm c0 k0 steps).confidence ≤ 1 := by
  have hinit1 : (TrackedTool.init tool_id nm c0 k0).detection_history.length ≤
      DETECTION_HISTORY_SIZE := by
    simp [TrackedTool.init, DETECTION_HISTORY_SIZE]
  have hinit2 : (TrackedTool.init tool_id nm c0 k0).confidence =
      histConfidence (TrackedTool.init tool_id nm c0 k0).detection_history := by
    show (1 : ℚ) = histConfidence [1]
    rw [histConfidence]
    norm_num
  obtain ⟨hh, hc⟩ := applyCycle_run steps (TrackedTool.init tool_id nm c0 k0)
    hinit1 hinit2
  have hinithist : (TrackedTool.init tool_id nm c0 k0).detection_history ++
      steps.map stepBit = 1 :: steps.map stepBit := rfl
  rw [hinithist] at hh
  have hble : ∀ b ∈ lastN DETECTION_HISTORY_SIZE (1 :: steps.map stepBit), b ≤ 1 := by
    intro b hb
    rcases List.mem_cons.mp (mem_lastN hb) with h1 | h1
    · omega
    · obtain ⟨s, _, hs⟩ := List.mem_map.mp h1
      rw [← hs, stepBit]
      split <;> omega
  refine ⟨?_, ?_, ?_⟩
  · show (steps.foldl applyCycle (TrackedTool.init tool_id nm c0 k0)).confidence = _
    rw [hc, hh, histConfidence, lastN_length, List.length_cons, List.length_map,
      Nat.min_comm]
  · show (0 : ℚ) ≤ (steps.foldl applyCycle (TrackedTool.init tool_id nm c0 k0)).confidence
    rw [hc]
    exact histConfidence_nonneg _
  · show (steps.foldl applyCycle (TrackedTool.init tool_id nm c0 k0)).confidence ≤ 1
    rw [hc, hh]
    exact histConfidence_le_one hble

theorem base_scale_pos {w h : ℕ} (hw : 1 ≤ w) (hh : 1 ≤ h) :
    0 < base_scale w h := by
  rw [base_scale]
  split
  · apply lt_max_of_lt_left
    apply div_pos
    · norm_num [UPSCALE_TARGET]
    · exact_mod_cast hw
  · norm_num

theorem detect_mem_spec {x y : ℤ} {w h : ℕ} {orc : List OracleDet} {d : Detection}
    (hd : d ∈ detect_aruco_in_hand_roi x y w h orc) :
    ∃ od ∈ orc, TOOL_MARKERS od.id = some d.name ∧ d.id = od.id ∧
      ¬ arcLength od.corners < MIN_MARKER_PERIMETER ∧
      d.corners = od.corners.map (invTransform (base_scale w h) (x, y)) := by
  rw [detect_aruco_in_hand_roi] at hd
  by_cases h0 : w * h = 0
  · rw [if_pos h0] at hd
    exact absurd hd (List.not_mem_nil d)
  · rw [if_neg h0] at hd
    obtain ⟨od, hod, hf⟩ := List.mem_filterMap.mp hd
    refine ⟨od, hod, ?_⟩
    split at hf
    · exact absurd hf (by simp)
    · rename_i nm hm
      split at hf
      · exact absurd hf (by simp)
      · rename_i harc
        have hd2 := Option.some_inj.mp hf
        subst hd2
        exact ⟨hm, rfl, harc, rfl⟩

/-- Claim C6: every published detection's corner polygon is the oracle's
region-local (possibly upscaled) polygon divided by the scale plus the
region origin, and the forward/inverse coordinate transforms are mutually
inverse round trips. -/
theorem claim_c6_coordinates (x y : ℤ) (w h : ℕ) (orc : List OracleDet)
    (p : ℚ × ℚ) (hw : 1 ≤ w) (hh : 1 ≤ h) :
    (∀ d ∈ detect_aruco_in_hand_roi x y w h orc, ∃ od ∈ orc,
        d.id = od.id ∧
        d.corners = od.corners.map (invTransform (base_scale w h) (x, y))) ∧
    invTransform (base_scale w h) (x, y) (fwdTransform (base_scale w h) (x, y) p) = p ∧
    fwdTransform (base_scale w h) (x, y) (invTransform (base_scale w h) (x, y) p) = p := by
  have hs : base_scale w h ≠ 0 := ne_of_gt (base_scale_pos hw hh)
  refine ⟨?_, ?_, ?_⟩
  · intro d hd
    obtain ⟨od, hod, _, hid, _, hcor⟩ := detect_mem_spec hd
    exact ⟨od, hod, hid, hcor⟩
  · rw [invTransform, fwdTransform]
    obtain ⟨p1, p2⟩ := p
    simp only
    rw [Prod.mk.injEq]
    constructor <;> field_simp <;> ring
  · rw [invTransform, fwdTransform]
    obtain ⟨p1, p2⟩ := p
    simp only
    rw [Prod.mk.injEq]
    constructor <;> field_simp <;> ring

/-- Witness for `claim_c6_coordinates` at a concrete input. -/
theorem claim_c6_coordinates_witness :
    (∀ d ∈ detect_aruco_in_hand_roi 5 7 100 50 [], ∃ od ∈ ([] : List OracleDet),
        d.id = od.id ∧
        d.corners = od.corners.map (invTransform (base_scale 100 50) (5, 7))) ∧
    invTransform (base_scale 100 50) (5, 7)
      (fwdTransform (base_scale 100 50) (5, 7) (3, 4)) = (3, 4) ∧
    fwdTransform (base_scale 100 50) (5, 7)
      (invTransform (base_scale 100 50) (5, 7) (3, 4)) = (3, 4) :=
  claim_c6_coordinates 5 7 100 50 [] (3, 4) (by decide) (by decide)

/-- Claim C7: oracle results with an unregistered marker id or with
perimeter below the minimum threshold never appear as
`DetectionCandidate`s: deleting such an entry from the oracle output does
not change the detections, and every produced detection has a registered
id. -/
theorem claim_c7_filtering (x y : ℤ) (w h : ℕ) (pre post : List OracleDet)
    (r : OracleDet)
    (hbad : TOOL_MARKERS r.id = none ∨ arcLength r.corners < MIN_MARKER_PERIMETER) :
    detect_aruco_in_hand_roi x y w h (pre ++ r :: post) =
      detect_aruco_in_hand_roi x y w h (pre ++ post) ∧
    ((detect_aruco_in_hand_roi x y w h (pre ++ post)).all
      (fun d => (TOOL_MARKERS d.id).isSome)) = true := by
  constructor
  · rw [detect_aruco_in_hand_roi, detect_aruco_in_hand_roi]
    by_cases h0 : w * h = 0
    · rw [if_pos h0, if_pos h0]
    · rw [if_neg h0, if_neg h0]
      rw [List.filterMap_append, List.filterMap_append]
      congr 1
      rw [List.filterMap_cons_none]
      rcases hbad with hb | hb
      · simp [hb]
      · rcases hm : TOOL_MARKERS r.id with _ | nm
        · simp [hm]
        · simp only [hm]
          rw [if_pos hb]
  · rw [List.all_eq_true]
    intro d hd
    obtain ⟨od, _, hnm, hid, _, _⟩ := detect_mem_spec hd
    rw [hid, hnm]
    rfl

/-- Witness for `claim_c7_filtering` at a concrete input: marker id 99 is
not in the registry, so its oracle entry is dropped. -/
theorem claim_c7_filtering_witness :
    detect_aruco_in_hand_roi 0 0 10 10
        ([] ++ ({ id := 99, corners := [] } : OracleDet) :: []) =
      detect_aruco_in_hand_roi 0 0 10 10 ([] ++ []) ∧
    ((detect_aruco_in_hand_roi 0 0 10 10 ([] ++ [])).all
      (fun d => (TOOL_MARKERS d.id).isSome)) = true :=
  claim_c7_filtering 0 0 10 10 [] [] { id := 99, corners := [] }
    (Or.inl (by decide))

/-- Claim C2 (counterexample to the claim as stated): on a pipeline cycle
where the detector is not invoked (frame 3, not a multiple of
`ARUCO_EVERY_N`), the tracker is left completely unchanged — in particular
no miss (`0`) is appended to the history of the existing track 20 — whereas
the claim requires the cycle to be recorded as a miss for every existing
id. -/
theorem claim_c2_counterexample :
    3 % ARUCO_EVERY_N ≠ 0 ∧
    arucoPhase 3 trHit1 [] = (trHit1, none) ∧
    (alistFind? 20 trHit1.tracked_tools).map (fun t => t.detection_history) =
      some [1] ∧
    ([1] : List ℕ) ≠ [1] ++ [0] := by
  refine ⟨by decide, ?_, by decide, by decide⟩
  rw [arucoPhase, if_neg (by decide)]

/-- Claim C2 (amended): on a cycle whose index is not a multiple of
`ARUCO_EVERY_N`, no marker detection occurs (the detector is not invoked)
and the tracker state is completely unchanged: its cycle counter does not
advance and no history entry is appended for any track. -/
theorem claim_c2_no_update_when_skipped (frame_count : ℕ) (tracker : ToolTracker)
    (hand_boxes : List HandRegion) (hmod : frame_count % ARUCO_EVERY_N ≠ 0) :
    arucoPhase frame_count tracker hand_boxes = (tracker, none) := by
  rw [arucoPhase, if_neg hmod]

/-- Witness for `claim_c2_no_update_when_skipped` at a concrete input. -/
theorem claim_c2_no_update_when_skipped_witness :
    arucoPhase 1 emptyTracker [] = (emptyTracker, none) :=
  claim_c2_no_update_when_skipped 1 emptyTracker [] (by decide)

/-- Claim C9: a result submission missing any of `procedureId`, `marks`,
`totalStages` is rejected with 400 and inserts no row; a contact request
missing `name`, `email`, or `message` is rejected with 400 and inserts no
row. -/
theorem claim_c9_validation (db1 : List TestResultRow) (b1 : ResultBody)
    (db2 : List ContactRow) (b2 : ContactBody)
    (h1 : b1.procedureId = none ∨ b1.marks = none ∨ b1.totalStages = none)
    (h2 : b2.name = none ∨ b2.email = none ∨ b2.message = none) :
    save_test_result db1 b1 = (400, db1) ∧ create_contact db2 b2 = (400, db2) := by
  constructor
  · obtain ⟨op, om, ot⟩ := b1
    rcases op with _ | p <;> rcases om with _ | m <;> rcases ot with _ | t <;>
      simp_all [save_test_result]
  · obtain ⟨on2, oe, om2⟩ := b2
    have htrim : pyStrip "" = "" := by decide
    rcases h2 with h | h | h <;> simp only at h <;> subst h <;>
      simp [create_contact, htrim]

theorem alistFind?_isSome_of_mem_keys {α : Type} {m : List (ℤ × α)} {tid : ℤ}
    (h : tid ∈ m.map Prod.fst) : (alistFind? tid m).isSome = true := by
  induction m with
  | nil => exact absurd h (by simp)
  | cons p rest ih =>
      rw [alistFind?]
      by_cases hp : p.1 = tid
      · rw [if_pos hp] ; rfl
      · rw [if_neg hp]
        rcases List.mem_map.mp h with ⟨q, hq, hfq⟩
        rcases List.mem_cons.mp hq with h1 | h1
        · exact absurd (h1 ▸ hfq) hp
        · exact ih (List.mem_map.mpr ⟨q, h1, hfq⟩)

theorem mem_keys_of_alistFind?_isSome {α : Type} {m : List (ℤ × α)} {tid : ℤ}
    (h : (alistFind? tid m).isSome = true) : tid ∈ m.map Prod.fst := by
  rcases hx : alistFind? tid m with _ | v
  · rw [hx] at h ; exact absurd h (by simp)
  · exact List.mem_map.mpr ⟨(tid, v), alistFind?_mem hx, rfl⟩

theorem alistFind?_filter_not_deleted {α : Type} (dl : List ℤ) :
    ∀ (m : List (ℤ × α)) (tid : ℤ),
      alistFind? tid (m.filter fun p => decide (p.1 ∉ dl)) =
        if tid ∉ dl then alistFind? tid m else none := by
  intro m
  induction m with
  | nil =>
      intro tid
      rw [List.filter_nil, alistFind?]
      split <;> rfl
  | cons p rest ih =>
      intro tid
      rw [List.filter_cons]
      by_cases hpd : p.1 ∈ dl
      · rw [if_neg (by simpa using hpd), ih]
        by_cases hp : p.1 = tid
        · subst hp
          rw [if_neg (not_not_intro hpd), if_neg (not_not_intro hpd)]
        · by_cases htd : tid ∈ dl
          · rw [if_neg (not_not_intro htd), if_neg (not_not_intro htd)]
          · rw [if_pos htd, if_pos htd, alistFind?, if_neg hp]
      · rw [if_pos (by simpa using hpd), alistFind?]
        by_cases hp : p.1 = tid
        · subst hp
          rw [if_pos rfl, if_pos hpd, alistFind?, if_pos rfl]
        · rw [if_neg hp, ih]
          by_cases htd : tid ∈ dl
          · rw [if_neg (not_not_intro htd), if_neg (not_not_intro htd)]
          · rw [if_pos htd, if_pos htd, alistFind?, if_neg hp]

theorem delCond_iff {now : ℚ} {ids : List ℤ} {lst : List (ℤ × ℚ)} {tid : ℤ} :
    delCond now ids lst tid = true ↔
      tid ∉ ids ∧ ∃ ts, alistFind? tid lst = some ts ∧ REPRINT_AFTER < now - ts := by
  rw [delCond, Bool.and_eq_true, decide_eq_true_eq]
  constructor
  · rintro ⟨h1, h2⟩
    refine ⟨h1, ?_⟩
    rcases hx : alistFind? tid lst with _ | ts
    · rw [hx] at h2 ; exact absurd h2 (by simp)
    · rw [hx] at h2
      exact ⟨ts, rfl, by simpa using h2⟩
  · rintro ⟨h1, ts, hts, hgt⟩
    refine ⟨h1, ?_⟩
    rw [hts]
    simpa using hgt

theorem logFold_events (now : ℚ) :
    ∀ (stable : List TrackedTool) (lst lp : List (ℤ × ℚ))
      (evs : List AppearanceEvent),
      (stable.map (·.id)).Nodup →
      (stable.foldl (logTick now) (lst, lp, evs)).2.2 =
        evs ++ (stable.filter fun t => (alistFind? t.id lp).isNone).map mkEvent := by
  intro stable
  induction stable with
  | nil => intro lst lp evs _ ; simp
  | cons t rest ih =>
      intro lst lp evs hnd
      rw [List.map_cons, List.nodup_cons] at hnd
      obtain ⟨hnotin, hnd2⟩ := hnd
      rw [List.foldl_cons, List.filter_cons, logTick]
      by_cases hfind : (alistFind? t.id lp).isSome = true
      · rw [if_pos hfind]
        have hpred : ((alistFind? t.id lp).isNone) = false := by
          rcases hx : alistFind? t.id lp with _ | v
          · rw [hx] at hfind ; exact absurd hfind (by simp)
          · rfl
        rw [hpred, if_neg (by simp)]
        exact ih _ _ _ hnd2
      · rw [if_neg hfind]
        have hpred : ((alistFind? t.id lp).isNone) = true := by
          rcases hx : alistFind? t.id lp with _ | v
          · rfl
          · rw [hx] at hfind ; exact absurd rfl hfind
        rw [hpred, if_pos rfl, ih _ _ _ hnd2]
        have hfc : rest.filter
            (fun r => (alistFind? r.id (alistInsert lp t.id now)).isNone) =
            rest.filter (fun r => (alistFind? r.id lp).isNone) := by
          apply List.filter_congr
          intro r hr
          have hne : t.id ≠ r.id := by
            intro he
            exact hnotin (List.mem_map.mpr ⟨r, hr, he.symm⟩)
          rw [alistFind?_insert_ne _ _ _ _ hne]
        rw [hfc, List.map_cons, List.append_assoc, List.singleton_append]

theorem logFold_lst_preserve (now : ℚ) :
    ∀ (stable : List TrackedTool) (lst lp : List (ℤ × ℚ))
      (evs : List AppearanceEvent) (tid : ℤ),
      tid ∉ stable.map (·.id) →
      alistFind? tid (stable.foldl (logTick now) (lst, lp, evs)).1 =
        alistFind? tid lst := by
  intro stable
  induction stable with
  | nil => intro lst lp evs tid _ ; rfl
  | cons t rest ih =>
      intro lst lp evs tid htid
      rw [List.map_cons] at htid
      have hne : t.id ≠ tid := by
        intro he
        exact htid (List.mem_cons.mpr (Or.inl he.symm))
      have hrest : tid ∉ rest.map (·.id) := by
        intro hmem
        exact htid (List.mem_cons.mpr (Or.inr hmem))
      rw [List.foldl_cons, logTick]
      by_cases hfind : (alistFind? t.id lp).isSome = true
      · rw [if_pos hfind, ih _ _ _ _ hrest]
        exact alistFind?_insert_ne _ _ _ _ hne
      · rw [if_neg hfind, ih _ _ _ _ hrest]
        exact alistFind?_insert_ne _ _ _ _ hne

theorem logFold_lp_preserve (now : ℚ) :
    ∀ (stable : List TrackedTool) (lst lp : List (ℤ × ℚ))
      (evs : List AppearanceEvent) (tid : ℤ),
      (alistFind? tid lp).isSome = true →
      alistFind? tid (stable.foldl (logTick now) (lst, lp, evs)).2.1 =
        alistFind? tid lp := by
  intro stable
  induction stable with
  | nil => intro lst lp evs tid _ ; rfl
  | cons t rest ih =>
      intro lst lp evs tid hsome
      rw [List.foldl_cons, logTick]
      by_cases hfind : (alistFind? t.id lp).isSome = true
      · rw [if_pos hfind]
        exact ih _ _ _ _ hsome
      · rw [if_neg hfind]
        have hne : t.id ≠ tid := by
          intro he
          rw [he] at hfind
          exact hfind hsome
        rw [ih _ _ _ _ (by rw [alistFind?_insert_ne _ _ _ _ hne] ; exact hsome)]
        exact alistFind?_insert_ne _ _ _ _ hne

/-- Claim C5 (amended): per logging cycle, (a) events are emitted exactly
for the valid tools whose id is not currently announced (`last_printed`) —
so the first time a track becomes valid it emits exactly one event and a
still-announced id emits nothing; and (b) an announced id is un-announced
(allowing a later re-emission) exactly when this cycle observes it absent
from the valid set with strictly more than `REPRINT_AFTER` seconds elapsed
since it was last seen valid. -/
theorem claim_c5_debounce (st : LogState) (now : ℚ) (stable : List TrackedTool)
    (tid : ℤ) (hnd : (stable.map (·.id)).Nodup)
    (hmem : tid ∈ st.last_printed.map Prod.fst) :
    (logStep st now stable).2 =
      (stable.filter fun t => (alistFind? t.id st.last_printed).isNone).map mkEvent ∧
    (alistFind? tid (logStep st now stable).1.last_printed = none ↔
      tid ∉ stable.map (·.id) ∧
        ∃ ts, alistFind? tid st.last_seen_time = some ts ∧
          REPRINT_AFTER < now - ts) := by
  constructor
  · rw [logStep]
    exact logFold_events now stable _ _ _ hnd
  · rw [logStep]
    simp only
    rw [alistFind?_filter_not_deleted]
    have hsome0 : (alistFind? tid st.last_printed).isSome = true :=
      alistFind?_isSome_of_mem_keys hmem
    have hlp1 : alistFind? tid
        (stable.foldl (logTick now) (st.last_seen_time, st.last_printed, [])).2.1 =
        alistFind? tid st.last_printed :=
      logFold_lp_preserve now stable _ _ _ tid hsome0
    have hsome1 : (alistFind? tid
        (stable.foldl (logTick now) (st.last_seen_time, st.last_printed, [])).2.1).isSome =
        true := by
      rw [hlp1] ; exact hsome0
    have hkeys1 : tid ∈
        ((stable.foldl (logTick now) (st.last_seen_time, st.last_printed, [])).2.1).map
          Prod.fst := mem_keys_of_alistFind?_isSome hsome1
    by_cases hdel : delCond now (stable.map (·.id))
        (stable.foldl (logTick now) (st.last_seen_time, st.last_printed, [])).1 tid = true
    · have hmem_del : tid ∈
          (((stable.foldl (logTick now) (st.last_seen_time, st.last_printed, [])).2.1).map
            Prod.fst).filter
            (delCond now (stable.map (·.id))
              (stable.foldl (logTick now) (st.last_seen_time, st.last_printed, [])).1) :=
        List.mem_filter.mpr ⟨hkeys1, hdel⟩
      rw [if_neg (not_not_intro hmem_del)]
      obtain ⟨habs, hrest⟩ := delCond_iff.mp hdel
      rw [logFold_lst_preserve now stable _ _ _ tid habs] at hrest
      simp only [true_iff]
      exact ⟨habs, hrest⟩
    · have hnot_del : tid ∉
          (((stable.foldl (logTick now) (st.last_seen_time, st.last_printed, [])).2.1).map
            Prod.fst).filter
            (delCond now (stable.map (·.id))
              (stable.foldl (logTick now) (st.last_seen_time, st.last_printed, [])).1) := by
        intro hmem2
        exact hdel (List.mem_filter.mp hmem2).2
      rw [if_pos hnot_del, hlp1]
      constructor
      · intro hnone
        rw [hnone] at hsome0
        exact absurd hsome0 (by simp)
      · rintro ⟨habs, ts, hts, hgt⟩
        exact absurd (delCond_iff.mpr ⟨habs, ts, by
          rw [logFold_lst_preserve now stable _ _ _ tid habs] ; exact hts, hgt⟩) hdel

/-- Witness for `claim_c5_debounce` at a concrete input. -/
theorem claim_c5_debounce_witness :
    (logStep stA 11 []).2 =
      (([] : List TrackedTool).filter
        fun t => (alistFind? t.id stA.last_printed).isNone).map mkEvent ∧
    (alistFind? 20 (logStep stA 11 []).1.last_printed = none ↔
      (20 : ℤ) ∉ (([] : List TrackedTool).map (·.id)) ∧
        ∃ ts, alistFind? 20 stA.last_seen_time = some ts ∧
          REPRINT_AFTER < 11 - ts) :=
  claim_c5_debounce stA 11 [] 20 (by simp) (by decide)

/-- Claim C5 (counterexample to the claim as stated): tool 20 is announced
at time 0 (one event); it is absent at the cycle at time 10, where the
elapsed absence equals the reprint window exactly, so (strict comparison) it
is NOT un-announced; when it reappears at time 21/2 — after an absence of
10.5 s, which is at least the reprint window — no event is emitted, contrary
to the claim that an absence of at least the window re-triggers exactly one
event on the next appearance. -/
theorem claim_c5_counterexample :
    (logStep logState0 0 [toolA]).1 = stA ∧
    (logStep logState0 0 [toolA]).2.length = 1 ∧
    logStep stA 10 [] = (stA, []) ∧
    (logStep stA (21/2) [toolA]).2 = [] ∧
    REPRINT_AFTER ≤ (21/2 : ℚ) - 0 := by
  refine ⟨?_, ?_, ?_, ?_, by norm_num [REPRINT_AFTER]⟩
  · norm_num [logStep, logTick, logState0, toolA, TrackedTool.init, alistInsert,
      alistFind?, stA, delCond]
  · norm_num [logStep, logTick, logState0, toolA, TrackedTool.init, alistInsert,
      alistFind?, delCond]
  · norm_num [logStep, logTick, stA, alistInsert, alistFind?, delCond, REPRINT_AFTER]
  · norm_num [logStep, logTick, stA, toolA, TrackedTool.init, alistInsert,
      alistFind?, delCond]

/-- Witness for `claim_c9_validation` at a concrete input. -/
theorem claim_c9_validation_witness :
    save_test_result [] { procedureId := none, marks := some 5, totalStages := some 4 } =
      (400, []) ∧
    create_contact [] { name := none, email := some "a", message := some "b" } =
      (400, []) :=
  claim_c9_validation [] { procedureId := none, marks := some 5, totalStages := some 4 }
    [] { name := none, email := some "a", message := some "b" }
    (Or.inl rfl) (Or.inl rfl)

/-- Witness for `claim_c10_invariant` at a concrete input. -/
theorem claim_c10_invariant_witness :
    (∀ p ∈ (emptyTracker.update [d20]).tracked_tools, p.2.is_valid = true) ∧
    (emptyTracker.update [d20]).get_stable_tools =
      (emptyTracker.update [d20]).tracked_tools.map Prod.snd ∧
    (TrackedTool.init 21 "artery_forceps" (0, 0) []).confidence ≤
      ((TrackedTool.init 21 "artery_forceps" (0, 0) []).update (1, 1) [] 1).confidence :=
  claim_c10_invariant emptyTracker [d20]
    (TrackedTool.init 21 "artery_forceps" (0, 0) []) (1, 1) [] 1
    (by simp [emptyTracker]) (init_WF_valid 21 "artery_forceps" (0, 0) []).1

end SurgiTrack
